import Mathlib

/-!
Shallow embedding of the pitch/interval value model in `乐理/ykimusic.py`.

Conventions of the embedding:
* Python `int` becomes `Int` (or `Nat` where the source value is a parsed
  digit string, hence non-negative); Python floor division `//` and `%` on a
  positive divisor become `Int.ediv` / `Int.emod`, which agree with floor
  division for positive divisors.
* A Python function that can raise an exception (dictionary `KeyError`,
  `raise ValueError`) or that re-validates through a constructor becomes an
  `Option`-valued function, `none` marking the raising executions.
* The regular expressions are modelled by explicit character-list scanners
  with the same backtracking behaviour (the alternation in `(#*|b*)` tries
  the sharp run first and falls back to the flat run).
-/

namespace YkiMusic

/-- The seven letter names, `Pitch.LETTERS` in the source. -/
inductive Letter
  | C | D | E | F | G | A | B
deriving DecidableEq

/-- `Pitch.__LETTER_STEP`: dict(C=0,D=2,E=4,F=5,G=7,A=9,B=11). -/
def Letter.step : Letter → Int
  | .C => 0 | .D => 2 | .E => 4 | .F => 5 | .G => 7 | .A => 9 | .B => 11

/-- `Pitch.LETTERS.index(letter)`. -/
def Letter.index : Letter → Nat
  | .C => 0 | .D => 1 | .E => 2 | .F => 3 | .G => 4 | .A => 5 | .B => 6

/-- `Pitch.LETTERS[i]`; only ever applied at indices below 7 (`% 7`). -/
def Letter.ofIndex : Nat → Letter
  | 0 => .C | 1 => .D | 2 => .E | 3 => .F | 4 => .G | 5 => .A | _ => .B

/-- The upper-case character of a letter. -/
def Letter.char : Letter → Char
  | .C => ('C') | .D => ('D') | .E => ('E') | .F => ('F')
  | .G => ('G') | .A => ('A') | .B => ('B')

/-- First group of the pitch regex `[CDEFGABcdefgab]`, combined with the
`letter.upper()` normalisation done by `Pitch.parse`. -/
def Letter.ofChar? (c : Char) : Option Letter :=
  if c = ('C') ∨ c = ('c') then some .C
  else if c = ('D') ∨ c = ('d') then some .D
  else if c = ('E') ∨ c = ('e') then some .E
  else if c = ('F') ∨ c = ('f') then some .F
  else if c = ('G') ∨ c = ('g') then some .G
  else if c = ('A') ∨ c = ('a') then some .A
  else if c = ('B') ∨ c = ('b') then some .B
  else none

/-- The optional trailing `([0-7])?` of the pitch regex, applied to what is
left after the accidental run; in a full match it must consume everything.
`[0-7]` means character code between 48 and 55. -/
def octaveTail? : List Char → Option (Option Nat)
  | [] => some none
  | [c] => if 48 ≤ c.toNat ∧ c.toNat ≤ 55 then some (some (c.toNat - 48)) else none
  | _ => none

/-- The `(#*|b*)([0-7])?` suffix of the pitch regex under `re.fullmatch`:
the greedy sharp run is tried first, and the flat run is the backtracking
alternative.  (Shrinking the greedy run can never help, because a leftover
accidental character is not an octave digit.) -/
def accOctave? (cs : List Char) : Option (String × Option Nat) :=
  match octaveTail? (cs.dropWhile (· == ('#'))) with
  | some o => some (String.mk (cs.takeWhile (· == ('#'))), o)
  | none =>
    match octaveTail? (cs.dropWhile (· == ('b'))) with
    | some o => some (String.mk (cs.takeWhile (· == ('b'))), o)
    | none => none

/-- A constructed `Pitch`: letter, accidental run and optional octave,
exactly the three private fields set by `Pitch.__init__`. -/
structure Pitch where
  letter : Letter
  accidental : String
  octave : Option Nat
deriving DecidableEq

/-- `Pitch.parse` on the character list of the input: full match of
`([CDEFGABcdefgab])(#*|b*)([0-7])?`, returning the validated fields. -/
def pitchFromChars : List Char → Option Pitch
  | [] => none
  | c :: rest =>
    match Letter.ofChar? c, accOctave? rest with
    | some l, some (acc, o) => some ⟨l, acc, o⟩
    | _, _ => none

/-- `Pitch.parse` followed by `Pitch.__init__`: `none` models both the
regex no-match outcome and the `ValueError` raised by the constructor. -/
def Pitch.ofString? (s : String) : Option Pitch :=
  pitchFromChars s.data

/-- `Pitch.step`: letter base minus flats plus sharps.  (For a constructed
pitch the accidental is never `None` in the source, since the regex group
always matches, possibly emptily, so the `None` branch is not modelled.) -/
def Pitch.step (p : Pitch) : Int :=
  Letter.step p.letter - (p.accidental.data.count ('b') : Int)
    + (p.accidental.data.count ('#') : Int)

/-- `Pitch.index`. -/
def Pitch.index (p : Pitch) : Nat :=
  Letter.index p.letter

/-- The `{self.octave or ''}` fragment of `Pitch.__str__`: a `None` octave
and the octave `0` both render as the empty string (Python truthiness). -/
def octString : Option Nat → String
  | none => ""
  | some 0 => ""
  | some k => Nat.repr k

/-- `Pitch.__str__`: letter, accidental run, then the octave fragment. -/
def Pitch.toStr (p : Pitch) : String :=
  String.mk [p.letter.char] ++ p.accidental ++ octString p.octave

/-- `Pitch.__eq__` on two pitches: accidental, letter and octave all equal. -/
def Pitch.eqb (p q : Pitch) : Bool :=
  decide (p.accidental = q.accidental ∧ p.letter = q.letter ∧ p.octave = q.octave)

/-- The tuple `(self.accidental, self.letter, self.octave)` that
`Pitch.__hash__` feeds to `hash`. -/
def Pitch.hashKey (p : Pitch) : String × Letter × Option Nat :=
  (p.accidental, p.letter, p.octave)

/-- The `self.octave or 4` fragment of `Pitch.__lt__`: Python truthiness
sends both a `None` octave and the octave `0` to the default 4. -/
def Pitch.oct4 (p : Pitch) : Nat :=
  match p.octave with
  | none => 4
  | some 0 => 4
  | some k => k

/-- `Pitch.__lt__`: lexicographic comparison of the Python tuples
`(self.octave or 4, self.step)`. -/
def Pitch.ltb (p q : Pitch) : Bool :=
  decide (p.oct4 < q.oct4 ∨ (p.oct4 = q.oct4 ∧ p.step < q.step))

/-- Structural well-formedness of a pitch value, as guaranteed by the
grammar: a homogeneous accidental run and an octave within 0..7. -/
def Pitch.valid (p : Pitch) : Bool :=
  (p.accidental.data.all (· == ('#')) || p.accidental.data.all (· == ('b'))) &&
    (match p.octave with
     | none => true
     | some k => decide (k ≤ 7))

/-- Interval quality as stored after the parse-time normalisation of the
aliases `+` to Augmented and `-` to Diminished.  Inside the character
class `[Mm+-ADP]` of the quality group, `+-A` is a range (character codes
43 to 65), so besides the five canonical qualities the source also
accepts and stores the characters comma, period, slash, the digits,
colon, semicolon, the comparison signs, question mark and at sign; the
constructor `other` carries such a stored character. -/
inductive Quality
  | P | M | m | A | D
  | other (c : Char)
deriving DecidableEq

/-- First group of the interval regex `[Mm+-ADP]` — the literals `M`,
`m`, `D`, `P` and the range `+-A` (codes 43..65) — together with the
normalisation of `+` and `-` done by `Interval.parse`.  Any matched
character of the range other than `+`, `-` and `A` is stored as itself. -/
def Quality.ofChar? (c : Char) : Option Quality :=
  if c = ('M') then some .M
  else if c = ('m') then some .m
  else if c = ('+') then some .A
  else if c = ('-') then some .D
  else if c = ('A') then some .A
  else if c = ('D') then some .D
  else if c = ('P') then some .P
  else if 43 ≤ c.toNat ∧ c.toNat ≤ 65 then some (.other c)
  else none

/-- The character the stored quality prints as in an f-string. -/
def Quality.char : Quality → Char
  | .P => ('P') | .M => ('M') | .m => ('m') | .A => ('A') | .D => ('D')
  | .other c => c

/-- `int(...)` on a non-empty digit string. -/
def digitsVal (l : List Char) : Nat :=
  l.foldl (fun n c => 10 * n + (c.toNat - 48)) 0

/-- `Interval.parse` on the character list: full match of
`([Mm+-ADP])(\d+)` (`\d` is character code 48..57), alias normalisation,
then the rejection of Perfect qualities whose degree is not congruent to
1, 4 or 5 modulo 7. -/
def intervalParseChars : List Char → Option (Quality × Nat)
  | [] => none
  | c :: rest =>
    match Quality.ofChar? c with
    | none => none
    | some q =>
      if rest ≠ [] ∧ rest.all (fun d => decide (48 ≤ d.toNat ∧ d.toNat ≤ 57)) then
        if ¬(digitsVal rest % 7 = 1 ∨ digitsVal rest % 7 = 4 ∨ digitsVal rest % 7 = 5)
            ∧ q = Quality.P then
          none
        else
          some (q, digitsVal rest)
      else none

/-- `Interval.parse` on a string. -/
def Interval.parse (s : String) : Option (Quality × Nat) :=
  intervalParseChars s.data

/-- A constructed `Interval`: normalised quality (the source keeps calling
it `accidental`) and degree. -/
structure Interval where
  accidental : Quality
  degree : Nat
deriving DecidableEq

/-- `Interval.parse` followed by `Interval.__init__`: `none` models both
the no-match outcome and the constructor `ValueError`. -/
def Interval.ofString? (s : String) : Option Interval :=
  match Interval.parse s with
  | none => none
  | some (q, d) => some ⟨q, d⟩

/-- Line 179 of the source: `octaves = self.degree // 7 - 1`. -/
def Interval.octaves (i : Interval) : Int :=
  ((i.degree / 7 : Nat) : Int) - 1

/-- Line 180: `mod_degree = (self.degree - 8) % 7 if self.degree > 8 else self.degree`. -/
def Interval.modDegree (i : Interval) : Nat :=
  if i.degree > 8 then (i.degree - 8) % 7 else i.degree

/-- The hard-coded `map` on lines 181-184; `none` models the `KeyError`
a missing key would raise. -/
def baseTable : Nat → Option Int
  | 1 => some 0 | 2 => some 2 | 3 => some 4 | 4 => some 5
  | 5 => some 7 | 6 => some 9 | 7 => some 11 | 8 => some 12
  | _ => none

/-- `Interval.step`: table lookup, octave correction, then the quality
adjustment; the final catch-all arm of the perfect-eligible branch is the
bare `return res - 1` of the source (it receives Diminished but also the
unguarded Major, minor and range-admitted qualities), and the catch-all
`none` of the imperfect branch is the `raise ValueError` on line 202
(reached by Perfect and by the range-admitted qualities). -/
def Interval.step (i : Interval) : Option Int :=
  match baseTable i.modDegree with
  | none => none
  | some b =>
    if i.modDegree = 1 ∨ i.modDegree = 4 ∨ i.modDegree = 5 ∨ i.modDegree = 8 then
      match i.accidental with
      | .P => some (b + i.octaves * 12)
      | .A => some (b + i.octaves * 12 + 1)
      | _ => some (b + i.octaves * 12 - 1)
    else
      match i.accidental with
      | .M => some (b + i.octaves * 12)
      | .m => some (b + i.octaves * 12 - 1)
      | .A => some (b + i.octaves * 12 + 1)
      | .D => some (b + i.octaves * 12 - 2)
      | _ => none

/-- `Interval.single_octave`: identity below degree 9, otherwise the
re-parsed interval `f'{self.accidental}{(self.degree - 8) % 7}'`; `none`
models the `ValueError` the inner constructor can raise. -/
def Interval.single_octave (i : Interval) : Option Interval :=
  if i.degree ≤ 8 then some i
  else Interval.ofString? (String.mk [i.accidental.char] ++ Nat.repr ((i.degree - 8) % 7))

/-- `Interval.__eq__`. -/
def Interval.eqb (i j : Interval) : Bool :=
  decide (i.accidental = j.accidental ∧ i.degree = j.degree)

/-- The tuple `(self.accidental, self.degree)` that `Interval.__hash__`
feeds to `hash`. -/
def Interval.hashKey (i : Interval) : Quality × Nat :=
  (i.accidental, i.degree)

/-- Structural well-formedness of an interval value, as guaranteed by
`Interval.parse`: Perfect quality only on degrees congruent to 1, 4 or 5
modulo 7. -/
def Interval.valid (i : Interval) : Bool :=
  if i.accidental = Quality.P then
    decide (i.degree % 7 = 1 ∨ i.degree % 7 = 4 ∨ i.degree % 7 = 5)
  else true

/-- `Pitch.__add__` with an `Interval` argument; the final `Pitch(...)`
re-construction is modelled by re-parsing the assembled string, and `none`
models any exception raised along the way. -/
def Pitch.add (p : Pitch) (i : Interval) : Option Pitch :=
  match Interval.step i with
  | none => none
  | some istep =>
    let total : Int := p.step + istep
    let resStep : Int := total.emod 12
    let octaveOffset : Int := total.ediv 12
    let resIndex : Nat := (((p.index : Int) + (i.degree : Int) - 1).emod 7).toNat
    let letter : Letter := Letter.ofIndex resIndex
    let stepDiff : Int := letter.step - resStep
    let modifier : String :=
      if stepDiff = 0 then ""
      else if stepDiff > 0 then String.mk (List.replicate stepDiff.toNat ('b'))
      else String.mk (List.replicate (-stepDiff).toNat ('#'))
    let octaveStr : String :=
      match p.octave with
      | none => ""
      | some 0 => ""
      | some k => toString ((k : Int) + octaveOffset)
    Pitch.ofString? (String.mk [letter.char] ++ modifier ++ octaveStr)

/-- Modelled from the claim of C2: `mod_degree = degree` if `degree ≤ 8`,
else `(degree - 8) mod 7`. -/
def specModDegree (i : Interval) : Nat :=
  if i.degree ≤ 8 then i.degree else (i.degree - 8) % 7

/-- Modelled from the claim of C2, following its words: base from the
fixed table, plus `octaves*12` with `octaves = degree // 7 - 1`, then the
quality adjustments it enumerates (Perfect/Augmented/Diminished on a
perfect-eligible class, Major/minor/Augmented/Diminished on an imperfect
class); combinations it does not enumerate yield no result. -/
def specStepC2 (i : Interval) : Option Int :=
  match baseTable (specModDegree i) with
  | none => none
  | some b =>
    if specModDegree i = 1 ∨ specModDegree i = 4 ∨ specModDegree i = 5 ∨ specModDegree i = 8 then
      match i.accidental with
      | .P => some (b + (((i.degree / 7 : Nat) : Int) - 1) * 12)
      | .A => some (b + (((i.degree / 7 : Nat) : Int) - 1) * 12 + 1)
      | .D => some (b + (((i.degree / 7 : Nat) : Int) - 1) * 12 - 1)
      | _ => none
    else
      match i.accidental with
      | .M => some (b + (((i.degree / 7 : Nat) : Int) - 1) * 12)
      | .m => some (b + (((i.degree / 7 : Nat) : Int) - 1) * 12 - 1)
      | .A => some (b + (((i.degree / 7 : Nat) : Int) - 1) * 12 + 1)
      | .D => some (b + (((i.degree / 7 : Nat) : Int) - 1) * 12 - 2)
      | _ => none

/-- The quality/degree-class combinations enumerated by the claim of C2. -/
def inSpecCases (i : Interval) : Bool :=
  if i.modDegree = 1 ∨ i.modDegree = 4 ∨ i.modDegree = 5 ∨ i.modDegree = 8 then
    match i.accidental with
    | .P => true | .A => true | .D => true | _ => false
  else if i.modDegree = 2 ∨ i.modDegree = 3 ∨ i.modDegree = 6 ∨ i.modDegree = 7 then
    match i.accidental with
    | .M => true | .m => true | .A => true | .D => true | _ => false
  else false

/-- Modelled from the claim of C6: the ordering key substitutes 4 for the
octave exactly when the octave is unspecified. -/
def claimOct (p : Pitch) : Nat :=
  match p.octave with
  | none => 4
  | some k => k

/-- Modelled from the claim of C6: lexicographic comparison on the pair
`(claimOct, step)`. -/
def claimLt (p q : Pitch) : Bool :=
  decide (claimOct p < claimOct q ∨ (claimOct p = claimOct q ∧ p.step < q.step))

/-- The amended ordering key of C6: 4 is substituted when the octave is
unspecified or 0. -/
def amendedOct (p : Pitch) : Nat :=
  match p.octave with
  | none => 4
  | some k => if k = 0 then 4 else k

theorem specModDegree_eq_modDegree (i : Interval) : specModDegree i = i.modDegree := by
  unfold specModDegree Interval.modDegree
  by_cases h : i.degree > 8
  · have h2 : ¬ i.degree ≤ 8 := by omega
    simp [h, h2]
  · have h2 : i.degree ≤ 8 := by omega
    simp [h, h2]

theorem all_takeWhile_beq (c : Char) (l : List Char) :
    (l.takeWhile (· == c)).all (· == c) = true := by
  induction l with
  | nil => rfl
  | cons a t ih =>
    by_cases h : (a == c) = true
    · simp [List.takeWhile_cons, h, ih]
    · simp [List.takeWhile_cons, h]

theorem takeWhile_append_all (c : Char) (l tl : List Char)
    (hl : l.all (· == c) = true) (htl : tl.takeWhile (· == c) = []) :
    (l ++ tl).takeWhile (· == c) = l := by
  induction l with
  | nil => simpa using htl
  | cons a t ih =>
    simp only [List.all_cons, Bool.and_eq_true] at hl
    simp [List.takeWhile_cons, hl.1, ih hl.2]

theorem dropWhile_append_all (c : Char) (l tl : List Char)
    (hl : l.all (· == c) = true) (htl : tl.dropWhile (· == c) = tl) :
    (l ++ tl).dropWhile (· == c) = tl := by
  induction l with
  | nil => simpa using htl
  | cons a t ih =>
    simp only [List.all_cons, Bool.and_eq_true] at hl
    simp [List.dropWhile_cons, hl.1, ih hl.2]

theorem octaveTail_bound (l : List Char) (o : Option Nat) (h : octaveTail? l = some o) :
    o = none ∨ ∃ k, o = some k ∧ k ≤ 7 := by
  cases l with
  | nil =>
    simp only [octaveTail?, Option.some.injEq] at h
    exact Or.inl h.symm
  | cons a t =>
    cases t with
    | nil =>
      simp only [octaveTail?] at h
      split at h
      · rename_i hrange
        right
        refine ⟨a.toNat - 48, by simpa using h.symm, by omega⟩
      · cases h
    | cons b u => cases h

theorem accOctave_sound (cs : List Char) (acc : String) (o : Option Nat)
    (h : accOctave? cs = some (acc, o)) :
    (acc.data.all (· == ('#')) = true ∨ acc.data.all (· == ('b')) = true) ∧
      (o = none ∨ ∃ k, o = some k ∧ k ≤ 7) := by
  unfold accOctave? at h
  cases h1 : octaveTail? (cs.dropWhile (· == ('#'))) with
  | some o1 =>
    rw [h1] at h
    simp only [Option.some.injEq, Prod.mk.injEq] at h
    obtain ⟨hacc, hoct⟩ := h
    subst hacc
    subst hoct
    exact ⟨Or.inl (all_takeWhile_beq ('#') cs), octaveTail_bound _ _ h1⟩
  | none =>
    rw [h1] at h
    cases h2 : octaveTail? (cs.dropWhile (· == ('b'))) with
    | some o2 =>
      rw [h2] at h
      simp only [Option.some.injEq, Prod.mk.injEq] at h
      obtain ⟨hacc, hoct⟩ := h
      subst hacc
      subst hoct
      exact ⟨Or.inr (all_takeWhile_beq ('b') cs), octaveTail_bound _ _ h2⟩
    | none =>
      rw [h2] at h
      cases h

theorem pitch_parse_shape (s : String) (p : Pitch) (h : Pitch.ofString? s = some p) :
    (p.accidental.data.all (· == ('#')) = true ∨ p.accidental.data.all (· == ('b')) = true) ∧
      (p.octave = none ∨ ∃ k, p.octave = some k ∧ k ≤ 7) := by
  unfold Pitch.ofString? at h
  cases hs : s.data with
  | nil => rw [hs] at h; cases h
  | cons c rest =>
    rw [hs] at h
    simp only [pitchFromChars] at h
    cases hl : Letter.ofChar? c with
    | none => rw [hl] at h; cases h
    | some l =>
      rw [hl] at h
      cases hao : accOctave? rest with
      | none => rw [hao] at h; cases h
      | some ao =>
        obtain ⟨acc, o⟩ := ao
        rw [hao] at h
        simp only [Option.some.injEq] at h
        subst h
        exact accOctave_sound rest acc o hao

theorem octString_facts (o : Option Nat)
    (ho : o = none ∨ ∃ k, o = some k ∧ 1 ≤ k ∧ k ≤ 7) :
    (octString o).data.takeWhile (· == ('#')) = [] ∧
      (octString o).data.dropWhile (· == ('#')) = (octString o).data ∧
      (octString o).data.takeWhile (· == ('b')) = [] ∧
      (octString o).data.dropWhile (· == ('b')) = (octString o).data ∧
      octaveTail? (octString o).data = some o := by
  rcases ho with h | ⟨k, hk, h1, h7⟩
  · subst h
    exact ⟨rfl, rfl, rfl, rfl, rfl⟩
  · subst hk
    interval_cases k <;> exact ⟨by decide, by decide, by decide, by decide, by decide⟩

theorem ofChar_char (l : Letter) : Letter.ofChar? l.char = some l := by
  cases l <;> rfl

theorem accOct_roundtrip_list (ad : List Char) (o : Option Nat)
    (hacc : ad.all (· == ('#')) = true ∨ ad.all (· == ('b')) = true)
    (ho : o = none ∨ ∃ k, o = some k ∧ 1 ≤ k ∧ k ≤ 7) :
    accOctave? (ad ++ (octString o).data) = some (String.mk ad, o) := by
  obtain ⟨ht1, hd1, ht2, hd2, hoct⟩ := octString_facts o ho
  rcases hacc with hs | hb
  · have e1 := dropWhile_append_all ('#') ad (octString o).data hs hd1
    have e2 := takeWhile_append_all ('#') ad (octString o).data hs ht1
    simp only [accOctave?, e1, e2, hoct]
  · cases ad with
    | nil =>
      have hs : ([] : List Char).all (· == ('#')) = true := rfl
      have e1 := dropWhile_append_all ('#') [] (octString o).data hs hd1
      have e2 := takeWhile_append_all ('#') [] (octString o).data hs ht1
      simp only [accOctave?, e1, e2, hoct]
    | cons a t =>
      have ha2 : a = ('b') := by
        simp only [List.all_cons, Bool.and_eq_true] at hb
        simpa using hb.1
      have e0 : ((a :: t) ++ (octString o).data).dropWhile (· == ('#')) =
          (a :: t) ++ (octString o).data := by
        simp only [List.cons_append]
        rw [List.dropWhile_cons_of_neg]
        simp [ha2]
      have e1 : octaveTail? ((a :: t) ++ (octString o).data) = none := by
        simp only [List.cons_append]
        subst ha2
        cases htu : t ++ (octString o).data with
        | nil => decide
        | cons x xs => rfl
      have e2 := dropWhile_append_all ('b') (a :: t) (octString o).data hb hd2
      have e3 := takeWhile_append_all ('b') (a :: t) (octString o).data hb ht2
      simp only [accOctave?, e0, e1, e2, e3, hoct]

theorem accOct_roundtrip (acc : String) (o : Option Nat)
    (hacc : acc.data.all (· == ('#')) = true ∨ acc.data.all (· == ('b')) = true)
    (ho : o = none ∨ ∃ k, o = some k ∧ 1 ≤ k ∧ k ≤ 7) :
    accOctave? (acc.data ++ (octString o).data) = some (acc, o) :=
  accOct_roundtrip_list acc.data o hacc ho

/-- Claim C1: the spec asserts that the simple-interval semitone distances
are M3 = 4, P5 = 7, P4 = 5 and m2 = 1, but the code computes
`octaves = degree // 7 - 1`, which is -1 for every degree below 7, so the
four values actually produced are -8, -5, -7 and -11. -/
theorem C1_simple_interval_steps_eval :
    Interval.ofString? ("M3") = some ⟨.M, 3⟩ ∧
    Interval.ofString? ("P5") = some ⟨.P, 5⟩ ∧
    Interval.ofString? ("P4") = some ⟨.P, 4⟩ ∧
    Interval.ofString? ("m2") = some ⟨.m, 2⟩ ∧
    Interval.step ⟨.M, 3⟩ = some (-8) ∧
    Interval.step ⟨.P, 5⟩ = some (-5) ∧
    Interval.step ⟨.P, 4⟩ = some (-7) ∧
    Interval.step ⟨.m, 2⟩ = some (-11) := by
  refine ⟨by decide, by decide, by decide, by decide, ?_, ?_, ?_, ?_⟩ <;> decide

/-- Claim C2: on every validly constructed interval whose quality and
degree class form one of the two combinations the algorithm of §4.1
enumerates, the implemented `step` agrees with that algorithm (including
its table, its fold of compound degrees and its `octaves = degree // 7 - 1`
octave correction). -/
theorem C2_step_follows_spec_algorithm (i : Interval)
    (_hv : i.valid = true) (hc : inSpecCases i = true) :
    Interval.step i = specStepC2 i := by
  unfold Interval.step specStepC2 inSpecCases at *
  rw [specModDegree_eq_modDegree] at *
  cases hb : baseTable i.modDegree with
  | none => simp
  | some b =>
    by_cases h14 : i.modDegree = 1 ∨ i.modDegree = 4 ∨ i.modDegree = 5 ∨ i.modDegree = 8
    · simp only [h14, if_true] at hc ⊢
      cases hq : i.accidental <;> simp_all [Interval.octaves]
    · by_cases h23 : i.modDegree = 2 ∨ i.modDegree = 3 ∨ i.modDegree = 6 ∨ i.modDegree = 7
      · simp only [h14, h23, if_true, if_false] at hc ⊢
        cases hq : i.accidental <;> simp_all [Interval.octaves]
      · simp [h14, h23] at hc

/-- Witness for C2 at the concrete interval M3. -/
theorem C2_witness :
    Interval.valid ⟨.M, 3⟩ = true ∧ inSpecCases ⟨.M, 3⟩ = true ∧
      Interval.step ⟨.M, 3⟩ = specStepC2 ⟨.M, 3⟩ :=
  ⟨by decide, by decide, C2_step_follows_spec_algorithm ⟨.M, 3⟩ (by decide) (by decide)⟩

/-- Claim C3: the spec asserts that C4 plus a major third is E4 and C4
plus a minor third is Eb4; because the interval steps are off by an
octave (see C1), the code instead produces E3 and Eb3, and neither result
is equal under identity to the expected pitch. -/
theorem C3_addition_eval :
    Pitch.ofString? ("C4") = some ⟨.C, "", some 4⟩ ∧
    Pitch.add ⟨.C, "", some 4⟩ ⟨.M, 3⟩ = some ⟨.E, "", some 3⟩ ∧
    Pitch.add ⟨.C, "", some 4⟩ ⟨.m, 3⟩ = some ⟨.E, "b", some 3⟩ ∧
    Pitch.ofString? ("E4") = some ⟨.E, "", some 4⟩ ∧
    Pitch.ofString? ("Eb4") = some ⟨.E, "b", some 4⟩ ∧
    Pitch.eqb ⟨.E, "", some 3⟩ ⟨.E, "", some 4⟩ = false ∧
    Pitch.eqb ⟨.E, "b", some 3⟩ ⟨.E, "b", some 4⟩ = false := by
  refine ⟨by decide, ?_, ?_, by decide, by decide, by decide, by decide⟩ <;> decide

/-- Claim C4: the spec asserts totality of the operations on valid values
and names `Interval("P15")` explicitly, but the code raises on it: the
compound fold `(15 - 8) % 7 = 0` misses the degree table (a `KeyError` in
`step`) and produces the unparsable text `P0` in `single_octave`; the
validly constructed `Interval("P11")` likewise reaches the
`raise ValueError` branch of `step`. -/
theorem C4_totality_fails_eval :
    Interval.ofString? ("P15") = some ⟨.P, 15⟩ ∧
    Interval.step ⟨.P, 15⟩ = none ∧
    Interval.single_octave ⟨.P, 15⟩ = none ∧
    Interval.ofString? ("P11") = some ⟨.P, 11⟩ ∧
    Interval.step ⟨.P, 11⟩ = none := by
  refine ⟨by decide, by decide, ?_, by decide, by decide⟩
  decide

/-- Claim C7: the spec asserts that `single_octave` of a degree-9 interval
is a degree-2 interval of the same quality, but the code computes the new
degree as `(9 - 8) % 7 = 1`, returning a degree-1 interval (for every
quality a degree-9 interval can validly carry); the degree ≤ 8 half of the
claim does hold, as evaluated on M3 and P8. -/
theorem C7_single_octave_eval :
    Interval.ofString? ("M9") = some ⟨.M, 9⟩ ∧
    Interval.single_octave ⟨.M, 9⟩ = some ⟨.M, 1⟩ ∧
    Interval.single_octave ⟨.m, 9⟩ = some ⟨.m, 1⟩ ∧
    Interval.single_octave ⟨.A, 9⟩ = some ⟨.A, 1⟩ ∧
    Interval.single_octave ⟨.D, 9⟩ = some ⟨.D, 1⟩ ∧
    Interval.ofString? ("P9") = none ∧
    (⟨.M, 1⟩ : Interval).degree ≠ 2 ∧
    Interval.single_octave ⟨.M, 3⟩ = some ⟨.M, 3⟩ ∧
    Interval.single_octave ⟨.P, 8⟩ = some ⟨.P, 8⟩ := by
  refine ⟨by decide, ?_, ?_, ?_, ?_, by decide, by decide, by decide, by decide⟩ <;> decide

/-- Claim C5, counterexample: the text `C0` is accepted by the grammar,
but rendering the constructed value drops the octave 0 (Python truthiness
in `__str__`), so re-construction yields an octave-unspecified pitch that
is not equal under identity to the original. -/
theorem C5_roundtrip_counterexample :
    Pitch.ofString? ("C0") = some ⟨.C, "", some 0⟩ ∧
    Pitch.toStr ⟨.C, "", some 0⟩ = "C" ∧
    Pitch.ofString? ("C") = some ⟨.C, "", none⟩ ∧
    Pitch.eqb ⟨.C, "", some 0⟩ ⟨.C, "", none⟩ = false := by
  refine ⟨by decide, ?_, by decide, by decide⟩
  decide

/-- Claim C5, amended: for every text accepted by the pitch grammar whose
octave digit, if present, is not 0, constructing a pitch and rendering it
back yields a text that re-constructs to the very same value; a text with
octave digit 0 instead renders without its octave. -/
theorem C5_roundtrip_amended (s : String) (p : Pitch)
    (h : Pitch.ofString? s = some p) (ho : p.octave ≠ some 0) :
    Pitch.ofString? (Pitch.toStr p) = some p := by
  obtain ⟨hacc, hoct⟩ := pitch_parse_shape s p h
  have ho2 : p.octave = none ∨ ∃ k, p.octave = some k ∧ 1 ≤ k ∧ k ≤ 7 := by
    rcases hoct with h0 | ⟨k, hk, h7⟩
    · exact Or.inl h0
    · rcases Nat.eq_zero_or_pos k with hz | hpos
      · subst hz
        exact absurd hk ho
      · exact Or.inr ⟨k, hk, hpos, h7⟩
  obtain ⟨l, acc, o⟩ := p
  have hro := accOct_roundtrip acc o hacc ho2
  have hdata : (Pitch.toStr ⟨l, acc, o⟩).data = l.char :: (acc.data ++ (octString o).data) := rfl
  unfold Pitch.ofString?
  rw [hdata]
  simp only [pitchFromChars, ofChar_char, hro]

/-- Witness for C5 at the concrete text Db3. -/
theorem C5_witness :
    Pitch.ofString? ("Db3") = some ⟨.D, "b", some 3⟩ ∧
      Pitch.ofString? (Pitch.toStr ⟨.D, "b", some 3⟩) = some ⟨.D, "b", some 3⟩ :=
  ⟨by decide, C5_roundtrip_amended ("Db3") ⟨.D, "b", some 3⟩ (by decide) (by decide)⟩

/-- Claim C6, counterexample: a pitch with explicit octave 0 is ordered
with the default 4, not with 0, because `self.octave or 4` sends the
falsy octave 0 to 4: under the code C0 is not below C3, although the
ordering key stated by the claim says it is. -/
theorem C6_ordering_counterexample :
    Pitch.ofString? ("C0") = some ⟨.C, "", some 0⟩ ∧
    Pitch.ofString? ("C3") = some ⟨.C, "", some 3⟩ ∧
    Pitch.ltb ⟨.C, "", some 0⟩ ⟨.C, "", some 3⟩ = false ∧
    claimLt ⟨.C, "", some 0⟩ ⟨.C, "", some 3⟩ = true := by
  refine ⟨by decide, by decide, ?_, ?_⟩ <;> decide

/-- Claim C6, amended: the pitch ordering is the lexicographic comparison
of the pairs (octave with 4 substituted when the octave is unspecified or
0, step). -/
theorem C6_ordering_amended (p q : Pitch) :
    Pitch.ltb p q = true ↔
      (amendedOct p < amendedOct q ∨ (amendedOct p = amendedOct q ∧ p.step < q.step)) := by
  have key : ∀ r : Pitch, Pitch.oct4 r = amendedOct r := by
    intro r
    unfold Pitch.oct4 amendedOct
    match h : r.octave with
    | none => rfl
    | some 0 => rfl
    | some (k + 1) => simp
  unfold Pitch.ltb
  rw [key p, key q, decide_eq_true_iff]

theorem intervalParseChars_P (ds : List Char) :
    intervalParseChars (('P') :: ds) =
      (if ds ≠ [] ∧ ds.all (fun d => decide (48 ≤ d.toNat ∧ d.toNat ≤ 57)) then
        if ¬(digitsVal ds % 7 = 1 ∨ digitsVal ds % 7 = 4 ∨ digitsVal ds % 7 = 5) then none
        else some (Quality.P, digitsVal ds)
      else none) := by
  have hq : Quality.ofChar? ('P') = some Quality.P := by decide
  simp only [intervalParseChars, hq, and_true]

/-- Claim C8: a Perfect-quality text (letter `P` followed by a non-empty
digit run) is rejected by `Interval.parse` exactly when its degree is not
congruent to 1, 4 or 5 modulo 7; construction fails in exactly the same
cases. -/
theorem C8_perfect_parse_rejection (s : String) (ds : List Char)
    (h1 : s.data = ('P') :: ds) (h2 : ds ≠ [])
    (h3 : ds.all (fun d => decide (48 ≤ d.toNat ∧ d.toNat ≤ 57)) = true) :
    (Interval.parse s = none ∧ Interval.ofString? s = none) ↔
      ¬(digitsVal ds % 7 = 1 ∨ digitsVal ds % 7 = 4 ∨ digitsVal ds % 7 = 5) := by
  have hp : Interval.parse s =
      (if ¬(digitsVal ds % 7 = 1 ∨ digitsVal ds % 7 = 4 ∨ digitsVal ds % 7 = 5) then none
       else some (Quality.P, digitsVal ds)) := by
    simp only [Interval.parse, h1, intervalParseChars_P]
    rw [if_pos ⟨h2, h3⟩]
  have ho : Interval.ofString? s =
      (if ¬(digitsVal ds % 7 = 1 ∨ digitsVal ds % 7 = 4 ∨ digitsVal ds % 7 = 5) then none
       else some ⟨Quality.P, digitsVal ds⟩) := by
    by_cases hm : digitsVal ds % 7 = 1 ∨ digitsVal ds % 7 = 4 ∨ digitsVal ds % 7 = 5 <;>
      simp [Interval.ofString?, hp, hm]
  by_cases hm : digitsVal ds % 7 = 1 ∨ digitsVal ds % 7 = 4 ∨ digitsVal ds % 7 = 5 <;>
    simp [hp, ho, hm]

/-- Witness for C8 at the concrete text P2. -/
theorem C8_witness :
    (("P2").data = ('P') :: [('2')] ∧ ([('2')] : List Char) ≠ [] ∧
      ([('2')] : List Char).all (fun d => decide (48 ≤ d.toNat ∧ d.toNat ≤ 57)) = true) ∧
    ((Interval.parse ("P2") = none ∧ Interval.ofString? ("P2") = none) ↔
      ¬(digitsVal [('2')] % 7 = 1 ∨ digitsVal [('2')] % 7 = 4 ∨
        digitsVal [('2')] % 7 = 5)) :=
  ⟨⟨by decide, by decide, by decide⟩,
    C8_perfect_parse_rejection ("P2") [('2')] (by decide) (by decide) (by decide)⟩

/-- Claim C9, counterexample: `Interval("M1")` is validly constructed and
its quality/degree-class combination (Major on the perfect-eligible class
1) falls outside the two specified cases, yet `step` does not fail: the
bare `return res - 1` of the perfect-eligible branch silently returns
-13. -/
theorem C9_step_counterexample :
    Interval.ofString? ("M1") = some ⟨.M, 1⟩ ∧
    Interval.step ⟨.M, 1⟩ = some (-13) ∧
    Interval.step ⟨.M, 1⟩ ≠ none := by
  refine ⟨by decide, ?_, by decide⟩
  decide

/-- Claim C9, amended: `Interval.step` fails exactly when the folded
degree class misses the table (`mod_degree = 0`, a `KeyError`) or when an
imperfect class carries a stored quality that is none of Major, minor,
Augmented and Diminished — Perfect (e.g. P11) or a quality admitted by
the `+-A` range of the character class, e.g. the quality `3` of the
parseable text `37` (the `raise ValueError`); every other combination,
including Major, minor or a range-admitted quality on a perfect-eligible
class, silently returns a number. -/
theorem C9_step_error_amended :
    (∀ i : Interval, Interval.step i = none ↔
      (i.modDegree = 0 ∨
        ((i.modDegree = 2 ∨ i.modDegree = 3 ∨ i.modDegree = 6 ∨ i.modDegree = 7) ∧
          i.accidental ≠ Quality.M ∧ i.accidental ≠ Quality.m ∧
          i.accidental ≠ Quality.A ∧ i.accidental ≠ Quality.D))) ∧
    Interval.ofString? ("37") = some ⟨.other ('3'), 7⟩ ∧
    Interval.step ⟨.other ('3'), 7⟩ = none ∧
    Interval.step ⟨.other ('3'), 1⟩ = some (-13) := by
  refine ⟨?_, by decide, by decide, by decide⟩
  intro i
  have hle : i.modDegree ≤ 8 := by
    unfold Interval.modDegree
    split
    · have := Nat.mod_lt (i.degree - 8) (y := 7) (by omega)
      omega
    · omega
  rcases i with ⟨q, d⟩
  simp only [Interval.step] at *
  generalize hmd : Interval.modDegree ⟨q, d⟩ = md at *
  interval_cases md <;> cases q <;> simp [baseTable]

/-- Claim C10: equality and the hash key are derived from exactly the same
field tuple for both value types, so equal values always have equal
hashes. -/
theorem C10_hash_consistent_with_eq :
    (∀ p q : Pitch, Pitch.eqb p q = true ↔ Pitch.hashKey p = Pitch.hashKey q) ∧
    (∀ i j : Interval, Interval.eqb i j = true ↔ Interval.hashKey i = Interval.hashKey j) := by
  constructor
  · intro p q
    simp [Pitch.eqb, Pitch.hashKey, Prod.ext_iff]
  · intro i j
    simp [Interval.eqb, Interval.hashKey, Prod.ext_iff]

end YkiMusic
